import Mathlib

/-!
# Verification of the warikan expense-splitting solver

Shallow embedding of `src/solve.ts` (helpers `validatePayment`,
`calculateBalances`, `generateRepayments`, `sortRepayments` and the exported
`solve`) together with the data model of `src/types.ts`.

Modelling conventions:
* `Money` is embedded as `Int`; JavaScript's `Math.floor(amount / count)` on
  integer operands is `Int.fdiv` (floor division).
* The JavaScript `Map` (which preserves insertion order and updates in place)
  is embedded as an association list `List (String × Int)` with
  first-occurrence insertion order.
* A thrown `Error` is embedded as `Except.error` carrying the message string.
* `Array.prototype.sort` (a stable sort per ES2019) with comparator
  `(a, b) => b.amount - a.amount` is embedded as a stable insertion sort in
  descending amount order.
-/

namespace Warikan

/-- `Payment` record from `src/types.ts` (`Money` as `Int`). -/
structure Payment where
  amount : Int
  payer : String
  beneficiaries : List String
deriving Repr, DecidableEq

/-- `Repayment` record from `src/types.ts`. -/
structure Repayment where
  amount : Int
  «from» : String
  «to» : String
deriving Repr, DecidableEq

/-- Inner loop of `validatePayment` over `payment.beneficiaries`, carrying the
`seen` set (embedded as the list of already-seen ids, in insertion order). -/
def checkBeneficiaries : List String → List String → Except String Unit
  | _, [] => .ok ()
  | seen, b :: rest =>
    if b = "" then .error "Invalid beneficiary: empty string"
    else if b ∈ seen then .error ("Duplicate beneficiary: '" ++ b ++ "'")
    else checkBeneficiaries (seen ++ [b]) rest

/-- `validatePayment` from `src/solve.ts`: amount check, payer check, then the
beneficiary scan. -/
def validatePayment (p : Payment) : Except String Unit :=
  if p.amount < 0 then
    .error ("Invalid amount: " ++ toString p.amount ++ " (must be non-negative)")
  else if p.payer = "" then .error "Invalid payer: empty string"
  else checkBeneficiaries [] p.beneficiaries

/-- The validation loop at the top of `solve`: validate each payment in input
order, stopping at the first failure. -/
def validatePayments : List Payment → Except String Unit
  | [] => .ok ()
  | p :: ps => do
    validatePayment p
    validatePayments ps

/-- `getBalance` from `calculateBalances`: `balances.get(id) ?? 0`. -/
def getBalance (bs : List (String × Int)) (id : String) : Int :=
  match bs.find? (fun e => e.1 = id) with
  | some e => e.2
  | none => 0

/-- `balances.set(id, v)` on a JavaScript `Map`: overwrite the entry in place
if the key is present, append it otherwise (insertion order preserved). -/
def setBalance : List (String × Int) → String → Int → List (String × Int)
  | [], id, v => [(id, v)]
  | (k, w) :: rest, id, v =>
    if k = id then (k, v) :: rest else (k, w) :: setBalance rest id v

/-- `addBalance` from `calculateBalances`:
`balances.set(id, getBalance(id) + amount)`. -/
def addBalance (bs : List (String × Int)) (id : String) (amount : Int) :
    List (String × Int) :=
  setBalance bs id (getBalance bs id + amount)

/-- The beneficiary loop of `calculateBalances`: debit `share` from every
beneficiary, and `share + remainder` from the one in the last position. -/
def debitBeneficiaries (bs : List (String × Int)) (share remainder : Int) :
    List String → List (String × Int)
  | [] => bs
  | [b] => addBalance bs b (-(share + remainder))
  | b :: rest => debitBeneficiaries (addBalance bs b (-share)) share remainder rest

/-- The body of the payment loop of `calculateBalances`: skip when
`amount == 0` or the beneficiary list is empty, otherwise credit the payer with
the full amount and debit the beneficiaries. `Math.floor(amount / count)` is
floor division `Int.fdiv`. -/
def applyPayment (bs : List (String × Int)) (p : Payment) : List (String × Int) :=
  if p.amount = 0 ∨ p.beneficiaries = [] then bs
  else
    let count : Int := p.beneficiaries.length
    let perPerson := p.amount.fdiv count
    let remainder := p.amount - perPerson * count
    debitBeneficiaries (addBalance bs p.payer p.amount) perPerson remainder
      p.beneficiaries

/-- `calculateBalances` from `src/solve.ts`: fold the payment loop over the
input, starting from the empty map. -/
def calculateBalances (payments : List Payment) : List (String × Int) :=
  payments.foldl applyPayment []

/-- The creditor partition of `generateRepayments`: entries with positive
balance, in first-occurrence order. -/
def creditorsOf (bs : List (String × Int)) : List (String × Int) :=
  bs.filterMap (fun e => if 0 < e.2 then some e else none)

/-- The debtor partition of `generateRepayments`: entries with negative
balance, stored as positive magnitude, in first-occurrence order. -/
def debtorsOf (bs : List (String × Int)) : List (String × Int) :=
  bs.filterMap (fun e => if e.2 < 0 then some (e.1, -e.2) else none)

/-- One insertion step of the stable descending-by-amount sort used for the
creditor and debtor lists (comparator `(a, b) => b.amount - a.amount`). -/
def insertDesc (x : String × Int) : List (String × Int) → List (String × Int)
  | [] => [x]
  | y :: ys => if x.2 < y.2 then y :: insertDesc x ys else x :: y :: ys

/-- Stable sort in descending amount order (ES2019 `Array.prototype.sort` is
stable; ties keep first-occurrence order). -/
def sortDesc (l : List (String × Int)) : List (String × Int) :=
  l.foldr insertDesc []

/-- The greedy matching loop of `generateRepayments`, with the cursor state
made explicit: the first component is the emitted repayment list, the second
and third are the portions of the creditor and debtor lists not yet consumed
when the `while` condition fails. Advancing a cursor past a fully-settled
entry is dropping the list head; an entry with a partially-settled remaining
amount stays at the head with its updated amount.

The branch in which neither remaining amount reaches zero cannot occur (the
minimum always equals one of its arguments); it is rendered as an immediate
exit so that the definition is total. -/
def matchLoopAux :
    List (String × Int) → List (String × Int) →
    List Repayment × List (String × Int) × List (String × Int)
  | [], dl => ([], [], dl)
  | c :: cs, [] => ([], c :: cs, [])
  | (cid, ca) :: cs, (did2, da) :: ds =>
    let amount := min ca da
    let ca2 := ca - amount
    let da2 := da - amount
    let next :=
      if ca2 = 0 then
        if da2 = 0 then matchLoopAux cs ds
        else matchLoopAux cs ((did2, da2) :: ds)
      else
        if da2 = 0 then matchLoopAux ((cid, ca2) :: cs) ds
        else ([], (cid, ca2) :: cs, (did2, da2) :: ds)
    (⟨amount, did2, cid⟩ :: next.1, next.2)
termination_by cl dl => cl.length + dl.length
decreasing_by
  all_goals simp_arith [List.length_cons]

/-- `generateRepayments` together with the final cursor state of its loop. -/
def generateRepaymentsFull (bs : List (String × Int)) :
    List Repayment × List (String × Int) × List (String × Int) :=
  matchLoopAux (sortDesc (creditorsOf bs)) (sortDesc (debtorsOf bs))

/-- `generateRepayments` from `src/solve.ts`: partition, sort descending,
greedy matching. -/
def generateRepayments (bs : List (String × Int)) : List Repayment :=
  (generateRepaymentsFull bs).1

/-- Comparison used by `sortRepayments` as documented in its contract
(`from`, then `to`, by Unicode code-point order; Lean's `String` order is
exactly lexicographic code-point order). The source calls `localeCompare`,
which is locale-aware collation; see the analysis of the output-order claim. -/
def repLE (a b : Repayment) : Bool :=
  if a.«from» = b.«from» then decide (a.«to».data ≤ b.«to».data)
  else decide (a.«from».data < b.«from».data)

/-- One insertion step of the ascending sort of `sortRepayments`. -/
def insertRep (x : Repayment) : List Repayment → List Repayment
  | [] => [x]
  | y :: ys => if repLE y x then y :: insertRep x ys else x :: y :: ys

/-- `sortRepayments` from `src/solve.ts`, under its documented code-point
comparison contract. -/
def sortRepayments (l : List Repayment) : List Repayment :=
  l.foldr insertRep []

/-- `solve` from `src/solve.ts`: validation, balance accumulation, greedy
matching, final sort. -/
def solve (payments : List Payment) : Except String (List Repayment) := do
  validatePayments payments
  let balances := calculateBalances payments
  let repayments := generateRepayments balances
  return sortRepayments repayments

/-! ### Derived notions used to state the properties -/

/-- Sum of all balances in the mapping (also used for the amount sums of the
creditor and debtor lists, which share the representation). -/
def sumBalances (bs : List (String × Int)) : Int :=
  (bs.map Prod.snd).sum

/-- The keys of the mapping, in insertion order. -/
def keysOf (bs : List (String × Int)) : List String :=
  bs.map Prod.fst

/-- Total amount carried by entries with key `id` (their balance when the keys
are distinct). -/
def netAmount (l : List (String × Int)) (id : String) : Int :=
  (l.map (fun e => if e.1 = id then e.2 else 0)).sum

/-- Net change that a repayment list applies to the balance of `id` when every
repayment is settled. -/
def netFlow (reps : List Repayment) (id : String) : Int :=
  (reps.map (fun r =>
    (if r.«from» = id then r.amount else 0) +
      (if r.«to» = id then -r.amount else 0))).sum

/-- Settling one repayment: `r.from` pays `r.amount` to `r.to`, so the
debtor's (negative) balance rises by `r.amount` and the creditor's (positive)
balance falls by `r.amount` — the "debit `from`, credit `to`" application of
the settlement-correctness property, oriented so that settled balances return
to zero. -/
def settleRepayment (bs : List (String × Int)) (r : Repayment) :
    List (String × Int) :=
  addBalance (addBalance bs r.«from» r.amount) r.«to» (-r.amount)

/-- Settling a whole repayment list, in order. -/
def settleRepayments (bs : List (String × Int)) (reps : List Repayment) :
    List (String × Int) :=
  reps.foldl settleRepayment bs

/-- The validity predicate the validator enforces on one payment record:
non-negative amount, non-empty payer, non-empty beneficiaries with no
duplicate within the record. -/
def validPayment (p : Payment) : Prop :=
  0 ≤ p.amount ∧ p.payer ≠ "" ∧ (∀ b ∈ p.beneficiaries, b ≠ "") ∧
    p.beneficiaries.Nodup

instance (p : Payment) : Decidable (validPayment p) := by
  unfold validPayment
  infer_instance

/-- Modelled from the spec: the message of the first beneficiary violation in
index order — an empty id or an id already seen — used to state which message
the validator's fail-fast scan must produce. -/
def firstBeneficiaryViolation (seen : List String) : List String → String
  | [] => ""
  | b :: rest =>
    if b = "" then "Invalid beneficiary: empty string"
    else if b ∈ seen then "Duplicate beneficiary: '" ++ b ++ "'"
    else firstBeneficiaryViolation (seen ++ [b]) rest

/-- Modelled from the spec: the message of the first violation of an invalid
payment, checking in the claimed order `NegativeAmount`, `EmptyPayer`,
`EmptyBeneficiary` / `DuplicateBeneficiary` (the latter two in beneficiary
index order), with the claimed message formats. -/
def firstViolationMessage (p : Payment) : String :=
  if p.amount < 0 then
    "Invalid amount: " ++ toString p.amount ++ " (must be non-negative)"
  else if p.payer = "" then "Invalid payer: empty string"
  else firstBeneficiaryViolation [] p.beneficiaries

/-- The output order required by the spec: ascending by `from`, ties ascending
by `to`, comparing strings by Unicode code point (the lexicographic order on
the code-point sequence `String.data`, which is exactly how `<` on `String` is
defined). -/
def pairOrderedByCodePoint (a b : Repayment) : Prop :=
  a.«from».data < b.«from».data ∨
    (a.«from» = b.«from» ∧ a.«to».data ≤ b.«to».data)

instance (a b : Repayment) : Decidable (pairOrderedByCodePoint a b) := by
  unfold pairOrderedByCodePoint
  infer_instance

/-- A repayment list sorted as the spec's output-order property demands. -/
def sortedByCodePoint (l : List Repayment) : Prop :=
  l.Pairwise pairOrderedByCodePoint

instance (l : List Repayment) : Decidable (sortedByCodePoint l) := by
  unfold sortedByCodePoint
  infer_instance

/-! ### The pipeline over `ℚ`

JavaScript's `number` type admits non-integer values; nothing in
`validatePayment` checks integrality, so `solve` accepts them.  To state this
we repeat the embedding with `Money` as `ℚ`, which models IEEE doubles
faithfully at inputs where every double operation performed is exact (as at
the concrete inputs used below; `Math.floor` is `Int.floor`).  Validation
itself performs no arithmetic. -/

/-- `Payment` with a `ℚ`-valued amount. -/
structure PaymentQ where
  amount : ℚ
  payer : String
  beneficiaries : List String
deriving Repr, DecidableEq

/-- `Repayment` with a `ℚ`-valued amount. -/
structure RepaymentQ where
  amount : ℚ
  «from» : String
  «to» : String
deriving Repr, DecidableEq

/-- `validatePayment` over `ℚ`: same checks, same order, same messages. -/
def validatePaymentQ (p : PaymentQ) : Except String Unit :=
  if p.amount < 0 then
    .error ("Invalid amount: " ++ toString p.amount ++ " (must be non-negative)")
  else if p.payer = "" then .error "Invalid payer: empty string"
  else checkBeneficiaries [] p.beneficiaries

/-- The validation loop over `ℚ`-valued payments. -/
def validatePaymentsQ : List PaymentQ → Except String Unit
  | [] => .ok ()
  | p :: ps => do
    validatePaymentQ p
    validatePaymentsQ ps

/-- `getBalance` over `ℚ`. -/
def getBalanceQ (bs : List (String × ℚ)) (id : String) : ℚ :=
  match bs.find? (fun e => e.1 = id) with
  | some e => e.2
  | none => 0

/-- `balances.set` over `ℚ`. -/
def setBalanceQ : List (String × ℚ) → String → ℚ → List (String × ℚ)
  | [], id, v => [(id, v)]
  | (k, w) :: rest, id, v =>
    if k = id then (k, v) :: rest else (k, w) :: setBalanceQ rest id v

/-- `addBalance` over `ℚ`. -/
def addBalanceQ (bs : List (String × ℚ)) (id : String) (amount : ℚ) :
    List (String × ℚ) :=
  setBalanceQ bs id (getBalanceQ bs id + amount)

/-- The beneficiary loop of `calculateBalances` over `ℚ`. -/
def debitBeneficiariesQ (bs : List (String × ℚ)) (share remainder : ℚ) :
    List String → List (String × ℚ)
  | [] => bs
  | [b] => addBalanceQ bs b (-(share + remainder))
  | b :: rest => debitBeneficiariesQ (addBalanceQ bs b (-share)) share remainder rest

/-- The payment loop body of `calculateBalances` over `ℚ`
(`Math.floor` is `Int.floor`). -/
def applyPaymentQ (bs : List (String × ℚ)) (p : PaymentQ) : List (String × ℚ) :=
  if p.amount = 0 ∨ p.beneficiaries = [] then bs
  else
    let count : ℚ := p.beneficiaries.length
    let perPerson : ℚ := ⌊p.amount / count⌋
    let remainder := p.amount - perPerson * count
    debitBeneficiariesQ (addBalanceQ bs p.payer p.amount) perPerson remainder
      p.beneficiaries

/-- `calculateBalances` over `ℚ`. -/
def calculateBalancesQ (payments : List PaymentQ) : List (String × ℚ) :=
  payments.foldl applyPaymentQ []

/-- Creditor partition over `ℚ`. -/
def creditorsOfQ (bs : List (String × ℚ)) : List (String × ℚ) :=
  bs.filterMap (fun e => if 0 < e.2 then some e else none)

/-- Debtor partition over `ℚ`. -/
def debtorsOfQ (bs : List (String × ℚ)) : List (String × ℚ) :=
  bs.filterMap (fun e => if e.2 < 0 then some (e.1, -e.2) else none)

/-- Stable descending insertion step over `ℚ`. -/
def insertDescQ (x : String × ℚ) : List (String × ℚ) → List (String × ℚ)
  | [] => [x]
  | y :: ys => if x.2 < y.2 then y :: insertDescQ x ys else x :: y :: ys

/-- Stable descending sort over `ℚ`. -/
def sortDescQ (l : List (String × ℚ)) : List (String × ℚ) :=
  l.foldr insertDescQ []

/-- The greedy matching loop over `ℚ` (same shape as `matchLoopAux`). -/
def matchLoopQAux :
    List (String × ℚ) → List (String × ℚ) →
    List RepaymentQ × List (String × ℚ) × List (String × ℚ)
  | [], dl => ([], [], dl)
  | c :: cs, [] => ([], c :: cs, [])
  | (cid, ca) :: cs, (did2, da) :: ds =>
    let amount := min ca da
    let ca2 := ca - amount
    let da2 := da - amount
    let next :=
      if ca2 = 0 then
        if da2 = 0 then matchLoopQAux cs ds
        else matchLoopQAux cs ((did2, da2) :: ds)
      else
        if da2 = 0 then matchLoopQAux ((cid, ca2) :: cs) ds
        else ([], (cid, ca2) :: cs, (did2, da2) :: ds)
    (⟨amount, did2, cid⟩ :: next.1, next.2)
termination_by cl dl => cl.length + dl.length
decreasing_by
  all_goals simp_arith [List.length_cons]

/-- `generateRepayments` over `ℚ`. -/
def generateRepaymentsQ (bs : List (String × ℚ)) : List RepaymentQ :=
  (matchLoopQAux (sortDescQ (creditorsOfQ bs)) (sortDescQ (debtorsOfQ bs))).1

/-- The final-sort comparison over `ℚ`-valued repayments. -/
def repLEQ (a b : RepaymentQ) : Bool :=
  if a.«from» = b.«from» then decide (a.«to».data ≤ b.«to».data)
  else decide (a.«from».data < b.«from».data)

/-- Final-sort insertion step over `ℚ`-valued repayments. -/
def insertRepQ (x : RepaymentQ) : List RepaymentQ → List RepaymentQ
  | [] => [x]
  | y :: ys => if repLEQ y x then y :: insertRepQ x ys else x :: y :: ys

/-- `sortRepayments` over `ℚ`-valued repayments. -/
def sortRepaymentsQ (l : List RepaymentQ) : List RepaymentQ :=
  l.foldr insertRepQ []

/-- `solve` over `ℚ`. -/
def solveQ (payments : List PaymentQ) : Except String (List RepaymentQ) := do
  validatePaymentsQ payments
  let balances := calculateBalancesQ payments
  let repayments := generateRepaymentsQ balances
  return sortRepaymentsQ repayments

/-! ## Basic lemmas about the balance map -/

theorem getBalance_nil (id : String) : getBalance [] id = 0 := rfl

theorem getBalance_cons (k : String) (w : Int) (bs : List (String × Int))
    (id : String) :
    getBalance ((k, w) :: bs) id = if k = id then w else getBalance bs id := by
  simp only [getBalance, List.find?]
  by_cases h : k = id <;> simp [h]

theorem sumBalances_nil : sumBalances [] = 0 := rfl

theorem sumBalances_cons (e : String × Int) (bs : List (String × Int)) :
    sumBalances (e :: bs) = e.2 + sumBalances bs := by
  simp [sumBalances]

theorem sumBalances_setBalance (bs : List (String × Int)) (id : String)
    (v : Int) :
    sumBalances (setBalance bs id v) = sumBalances bs - getBalance bs id + v := by
  induction bs with
  | nil => simp [setBalance, sumBalances, getBalance]
  | cons e rest ih =>
    obtain ⟨k, w⟩ := e
    by_cases h : k = id
    · simp [setBalance, h, sumBalances_cons, getBalance_cons]
      ring
    · simp only [setBalance, h, if_false, sumBalances_cons, getBalance_cons, ih]
      ring

theorem sumBalances_addBalance (bs : List (String × Int)) (id : String)
    (a : Int) : sumBalances (addBalance bs id a) = sumBalances bs + a := by
  simp [addBalance, sumBalances_setBalance]
  ring

theorem getBalance_setBalance (bs : List (String × Int)) (id k : String)
    (v : Int) :
    getBalance (setBalance bs id v) k =
      if id = k then v else getBalance bs k := by
  induction bs with
  | nil =>
    by_cases h : id = k <;> simp [setBalance, getBalance_cons, getBalance_nil, h]
  | cons e rest ih =>
    obtain ⟨k', w⟩ := e
    by_cases h : k' = id
    · subst h
      by_cases h2 : k' = k <;> simp [setBalance, getBalance_cons, h2]
    · simp only [setBalance, h, if_false, getBalance_cons, ih]
      by_cases h2 : k' = k
      · subst h2
        simp [Ne.symm h]
      · simp [h2]

theorem getBalance_addBalance (bs : List (String × Int)) (id k : String)
    (a : Int) :
    getBalance (addBalance bs id a) k =
      getBalance bs k + if id = k then a else 0 := by
  simp only [addBalance, getBalance_setBalance]
  by_cases h : id = k
  · subst h
    simp
  · simp [h]

/-! ## Keys of the balance map -/

theorem keysOf_setBalance (bs : List (String × Int)) (id : String) (v : Int) :
    keysOf (setBalance bs id v) = keysOf bs ∨
      (id ∉ keysOf bs ∧ keysOf (setBalance bs id v) = keysOf bs ++ [id]) := by
  induction bs with
  | nil => right; simp [setBalance, keysOf]
  | cons e rest ih =>
    obtain ⟨k, w⟩ := e
    by_cases h : k = id
    · left
      simp [setBalance, h, keysOf]
    · rcases ih with ih | ⟨hnot, ih⟩
      · left
        simp [setBalance, h, keysOf] at ih ⊢
        exact ih
      · right
        constructor
        · simp [keysOf, h] at hnot ⊢
          exact ⟨fun he => h he.symm, hnot⟩
        · simp [setBalance, h, keysOf] at ih ⊢
          exact ih

theorem nodupKeys_setBalance (bs : List (String × Int)) (id : String) (v : Int)
    (h : (keysOf bs).Nodup) : (keysOf (setBalance bs id v)).Nodup := by
  rcases keysOf_setBalance bs id v with he | ⟨hnot, he⟩
  · rwa [he]
  · rw [he]
    simp [List.nodup_append, h, hnot]

theorem nodupKeys_addBalance (bs : List (String × Int)) (id : String) (a : Int)
    (h : (keysOf bs).Nodup) : (keysOf (addBalance bs id a)).Nodup :=
  nodupKeys_setBalance _ _ _ h

theorem nodupKeys_debitBeneficiaries (l : List String) (share rem : Int) :
    ∀ bs, (keysOf bs).Nodup →
      (keysOf (debitBeneficiaries bs share rem l)).Nodup := by
  induction l with
  | nil => intro bs h; simpa [debitBeneficiaries] using h
  | cons b rest ih =>
    intro bs h
    cases rest with
    | nil => exact nodupKeys_addBalance _ _ _ h
    | cons b' rest' =>
      exact ih _ (nodupKeys_addBalance _ _ _ h)

theorem nodupKeys_applyPayment (bs : List (String × Int)) (p : Payment)
    (h : (keysOf bs).Nodup) : (keysOf (applyPayment bs p)).Nodup := by
  unfold applyPayment
  split
  · exact h
  · exact nodupKeys_debitBeneficiaries _ _ _ _ (nodupKeys_addBalance _ _ _ h)

theorem nodupKeys_calculateBalances (ps : List Payment) :
    (keysOf (calculateBalances ps)).Nodup := by
  suffices h : ∀ bs, (keysOf bs).Nodup →
      (keysOf (ps.foldl applyPayment bs)).Nodup by
    exact h [] (by simp [keysOf])
  induction ps with
  | nil => intro bs h; simpa
  | cons p rest ih =>
    intro bs h
    exact ih _ (nodupKeys_applyPayment _ _ h)

/-! ## Conservation -/

theorem sumBalances_debitBeneficiaries (share rem : Int) :
    ∀ (l : List String) (bs : List (String × Int)), l ≠ [] →
      sumBalances (debitBeneficiaries bs share rem l) =
        sumBalances bs - (share * l.length + rem) := by
  intro l
  induction l with
  | nil => intro bs h; exact absurd rfl h
  | cons b rest ih =>
    intro bs _
    cases rest with
    | nil =>
      simp [debitBeneficiaries, sumBalances_addBalance]
      ring
    | cons b' rest' =>
      rw [show debitBeneficiaries bs share rem (b :: b' :: rest') =
          debitBeneficiaries (addBalance bs b (-share)) share rem (b' :: rest')
        from rfl]
      rw [ih _ (by simp), sumBalances_addBalance]
      simp [List.length_cons]
      ring

theorem sumBalances_applyPayment (bs : List (String × Int)) (p : Payment) :
    sumBalances (applyPayment bs p) = sumBalances bs := by
  unfold applyPayment
  split
  · rfl
  · next h =>
    push_neg at h
    rw [sumBalances_debitBeneficiaries _ _ _ _ h.2, sumBalances_addBalance]
    ring

theorem sumBalances_calculateBalances (ps : List Payment) :
    sumBalances (calculateBalances ps) = 0 := by
  suffices h : ∀ bs, sumBalances (ps.foldl applyPayment bs) = sumBalances bs by
    simpa [sumBalances] using h []
  induction ps with
  | nil => intro bs; rfl
  | cons p rest ih =>
    intro bs
    rw [List.foldl_cons, ih, sumBalances_applyPayment]

/-- C1: for every payment list that passes validation, the balances produced
by `calculateBalances` sum to exactly zero, after the whole list and after
every prefix of it.  (The conservation invariant in fact holds without the
validation hypothesis.) -/
theorem conservation (ps : List Payment)
    (_hv : validatePayments ps = .ok ()) :
    sumBalances (calculateBalances ps) = 0 ∧
      ∀ n : ℕ, sumBalances (calculateBalances (ps.take n)) = 0 :=
  ⟨sumBalances_calculateBalances ps,
    fun n => sumBalances_calculateBalances (ps.take n)⟩

/-- Witness for C1 at the third spec scenario. -/
theorem conservation_witness :
    validatePayments [⟨100, "A", ["A", "B"]⟩] = .ok () ∧
      sumBalances (calculateBalances [⟨100, "A", ["A", "B"]⟩]) = 0 ∧
      sumBalances (calculateBalances ([⟨100, "A", ["A", "B"]⟩].take 1)) = 0 :=
  ⟨rfl, (conservation [⟨100, "A", ["A", "B"]⟩] rfl).1,
    (conservation [⟨100, "A", ["A", "B"]⟩] rfl).2 1⟩

/-! ## Validation -/

theorem checkBeneficiaries_ok_iff :
    ∀ (l seen : List String),
      checkBeneficiaries seen l = .ok () ↔
        ((∀ b ∈ l, b ≠ "") ∧ l.Nodup ∧ ∀ b ∈ l, b ∉ seen) := by
  intro l
  induction l with
  | nil => intro seen; simp [checkBeneficiaries]
  | cons b rest ih =>
    intro seen
    by_cases hb : b = ""
    · simp [checkBeneficiaries, hb]
    · by_cases hseen : b ∈ seen
      · simp [checkBeneficiaries, hb, hseen]
      · rw [show checkBeneficiaries seen (b :: rest) =
            checkBeneficiaries (seen ++ [b]) rest by
          simp [checkBeneficiaries, hb, hseen]]
        rw [ih (seen ++ [b])]
        constructor
        · rintro ⟨h1, h2, h3⟩
          refine ⟨?_, ?_, ?_⟩
          · intro x hx
            rcases List.mem_cons.mp hx with rfl | hx
            · exact hb
            · exact h1 x hx
          · rw [List.nodup_cons]
            refine ⟨fun hmem => ?_, h2⟩
            have := h3 b hmem
            simp at this
          · intro x hx
            rcases List.mem_cons.mp hx with rfl | hx
            · exact hseen
            · intro hc
              exact (h3 x hx) (by simp [hc])
        · rintro ⟨h1, h2, h3⟩
          rw [List.nodup_cons] at h2
          refine ⟨fun x hx => h1 x (by simp [hx]), h2.2, fun x hx => ?_⟩
          simp only [List.mem_append, List.mem_singleton]
          push_neg
          exact ⟨h3 x (by simp [hx]), fun hc => h2.1 (hc ▸ hx)⟩

theorem validatePayment_ok_iff (p : Payment) :
    validatePayment p = .ok () ↔ validPayment p := by
  unfold validatePayment validPayment
  by_cases h1 : p.amount < 0
  · simp [h1]
  · by_cases h2 : p.payer = ""
    · simp [h1, h2]
    · simp [h1, h2, checkBeneficiaries_ok_iff, not_lt.mp h1]

theorem validatePayments_ok_iff (ps : List Payment) :
    validatePayments ps = .ok () ↔ ∀ p ∈ ps, validPayment p := by
  induction ps with
  | nil => simp [validatePayments]
  | cons p rest ih =>
    constructor
    · intro h
      have hp : validatePayment p = .ok () := by
        cases hp : validatePayment p with
        | error e =>
          rw [show validatePayments (p :: rest) =
              (validatePayment p >>= fun _ => validatePayments rest) from rfl,
            hp] at h
          cases h
        | ok u => obtain ⟨⟩ := u; rfl
      have hrest : validatePayments rest = .ok () := by
        rw [show validatePayments (p :: rest) =
            (validatePayment p >>= fun _ => validatePayments rest) from rfl,
          hp] at h
        exact h
      intro q hq
      rcases List.mem_cons.mp hq with rfl | hq
      · exact (validatePayment_ok_iff q).mp hp
      · exact (ih.mp hrest) q hq
    · intro h
      have hp : validatePayment p = .ok () :=
        (validatePayment_ok_iff p).mpr (h p (by simp))
      rw [show validatePayments (p :: rest) =
          (validatePayment p >>= fun _ => validatePayments rest) from rfl, hp]
      exact ih.mpr (fun q hq => h q (by simp [hq]))

theorem checkBeneficiaries_error :
    ∀ (l seen : List String),
      ¬ ((∀ b ∈ l, b ≠ "") ∧ l.Nodup ∧ ∀ b ∈ l, b ∉ seen) →
      checkBeneficiaries seen l = .error (firstBeneficiaryViolation seen l) := by
  intro l
  induction l with
  | nil => intro seen h; exact absurd ⟨by simp, by simp, by simp⟩ h
  | cons b rest ih =>
    intro seen h
    by_cases hb : b = ""
    · simp [checkBeneficiaries, firstBeneficiaryViolation, hb]
    · by_cases hseen : b ∈ seen
      · simp [checkBeneficiaries, firstBeneficiaryViolation, hb, hseen]
      · rw [show checkBeneficiaries seen (b :: rest) =
            checkBeneficiaries (seen ++ [b]) rest by
            simp [checkBeneficiaries, hb, hseen],
          show firstBeneficiaryViolation seen (b :: rest) =
            firstBeneficiaryViolation (seen ++ [b]) rest by
            simp [firstBeneficiaryViolation, hb, hseen]]
        apply ih
        intro hc
        apply h
        rw [← checkBeneficiaries_ok_iff] at hc ⊢
        simp [checkBeneficiaries, hb, hseen, hc]

theorem validatePayment_error (p : Payment) (h : ¬ validPayment p) :
    validatePayment p = .error (firstViolationMessage p) := by
  unfold validatePayment firstViolationMessage
  by_cases h1 : p.amount < 0
  · simp [h1]
  · by_cases h2 : p.payer = ""
    · simp [h1, h2]
    · simp only [h1, if_false, h2]
      apply checkBeneficiaries_error
      intro ⟨hc1, hc2, _⟩
      exact h ⟨not_lt.mp h1, h2, hc1, hc2⟩

theorem validatePayments_append_error (ps₁ ps₂ : List Payment) (p : Payment)
    (h1 : ∀ q ∈ ps₁, validPayment q) (h2 : ¬ validPayment p) :
    validatePayments (ps₁ ++ p :: ps₂) = .error (firstViolationMessage p) := by
  induction ps₁ with
  | nil =>
    rw [List.nil_append,
      show validatePayments (p :: ps₂) =
        (validatePayment p >>= fun _ => validatePayments ps₂) from rfl,
      validatePayment_error p h2]
    rfl
  | cons q rest ih =>
    have hq : validatePayment q = .ok () :=
      (validatePayment_ok_iff q).mpr (h1 q (by simp))
    rw [List.cons_append,
      show validatePayments (q :: (rest ++ p :: ps₂)) =
        (validatePayment q >>= fun _ => validatePayments (rest ++ p :: ps₂))
        from rfl,
      hq]
    exact ih (fun x hx => h1 x (by simp [hx]))

theorem solve_eq_of_validation_error (ps : List Payment) (e : String)
    (h : validatePayments ps = .error e) : solve ps = .error e := by
  unfold solve
  rw [h]
  rfl

theorem solve_eq_of_validation_ok (ps : List Payment)
    (h : validatePayments ps = .ok ()) :
    solve ps = .ok (sortRepayments (generateRepayments (calculateBalances ps))) := by
  unfold solve
  rw [h]
  rfl

/-- C4: `solve` succeeds exactly when every payment is valid (non-negative
amount, non-empty payer, non-empty beneficiaries, no duplicate beneficiary
within the record); on the first invalid payment in input order — all earlier
payments valid — the whole call fails with no result, carrying the message of
that payment's first violation in the claimed check order and formats. -/
theorem validation_fail_fast (ps ps₁ ps₂ : List Payment) (p : Payment) :
    ((∃ r, solve ps = .ok r) ↔ ∀ q ∈ ps, validPayment q) ∧
      (ps = ps₁ ++ p :: ps₂ → (∀ q ∈ ps₁, validPayment q) → ¬ validPayment p →
        solve ps = .error (firstViolationMessage p)) := by
  constructor
  · constructor
    · rintro ⟨r, hr⟩
      rw [← validatePayments_ok_iff]
      cases hv : validatePayments ps with
      | error e => rw [solve_eq_of_validation_error ps e hv] at hr; cases hr
      | ok u => obtain ⟨⟩ := u; rfl
    · intro h
      have hv := (validatePayments_ok_iff ps).mpr h
      exact ⟨_, solve_eq_of_validation_ok ps hv⟩
  · rintro rfl h1 h2
    exact solve_eq_of_validation_error _ _
      (validatePayments_append_error ps₁ ps₂ p h1 h2)

/-- Witness for C4 at the seventh spec scenario: a negative amount aborts the
call with the claimed message. -/
theorem validation_fail_fast_witness :
    solve [⟨-100, "A", ["B"]⟩] =
      .error "Invalid amount: -100 (must be non-negative)" := by
  have h := (validation_fail_fast [⟨-100, "A", ["B"]⟩] [] []
    ⟨-100, "A", ["B"]⟩).2 rfl (by simp) (by decide)
  simpa [firstViolationMessage] using h

/-! ## Unfolding equations for the matching loop

`matchLoopAux` is defined by well-founded recursion, so its defining equations
are provided as rewrite lemmas. -/

theorem matchLoopAux_nil_left (dl : List (String × Int)) :
    matchLoopAux [] dl = ([], [], dl) := by
  rw [matchLoopAux]

theorem matchLoopAux_cons_nil (c : String × Int) (cs : List (String × Int)) :
    matchLoopAux (c :: cs) [] = ([], c :: cs, []) := by
  rw [matchLoopAux]

theorem matchLoopAux_cons_cons (cid : String) (ca : Int)
    (cs : List (String × Int)) (did2 : String) (da : Int)
    (ds : List (String × Int)) :
    matchLoopAux ((cid, ca) :: cs) ((did2, da) :: ds) =
      let amount := min ca da
      let ca2 := ca - amount
      let da2 := da - amount
      let next :=
        if ca2 = 0 then
          if da2 = 0 then matchLoopAux cs ds
          else matchLoopAux cs ((did2, da2) :: ds)
        else
          if da2 = 0 then matchLoopAux ((cid, ca2) :: cs) ds
          else ([], (cid, ca2) :: cs, (did2, da2) :: ds)
      (⟨amount, did2, cid⟩ :: next.1, next.2) := by
  rw [matchLoopAux]

/-! ## Skipped payments (C9) -/

/-- C9 as amended: a payment with amount `0` or no beneficiaries leaves the
balance map unchanged, and `solve` on a list of such payments that also pass
validation (or on the empty list) returns `.ok []`. -/
theorem skip_payment_noop (bs : List (String × Int)) (p : Payment)
    (ps : List Payment) :
    (p.amount = 0 ∨ p.beneficiaries = [] → applyPayment bs p = bs) ∧
      ((∀ q ∈ ps, validPayment q) →
        (∀ q ∈ ps, q.amount = 0 ∨ q.beneficiaries = []) →
        solve ps = .ok []) := by
  constructor
  · intro h
    unfold applyPayment
    rw [if_pos h]
  · intro hvalid hskip
    have hv := (validatePayments_ok_iff ps).mpr hvalid
    rw [solve_eq_of_validation_ok ps hv]
    have hbal : calculateBalances ps = [] := by
      unfold calculateBalances
      clear hvalid hv
      induction ps with
      | nil => rfl
      | cons q rest ih =>
        rw [List.foldl_cons,
          show applyPayment [] q = [] by
            unfold applyPayment
            rw [if_pos (hskip q (by simp))]]
        exact ih (fun x hx => hskip x (by simp [hx]))
    rw [hbal]
    simp [generateRepayments, generateRepaymentsFull, creditorsOf, debtorsOf,
      sortDesc, matchLoopAux_nil_left, sortRepayments]

/-- Counterexample to C9 as stated: a list containing only payments of
amount `0` need not produce `.ok []` — an empty payer still fails
validation. -/
theorem skip_payment_counterexample :
    (⟨0, "", []⟩ : Payment).amount = 0 ∧
      solve [⟨0, "", []⟩] = .error "Invalid payer: empty string" :=
  ⟨rfl, rfl⟩

/-- Witness for C9 (amended): a single valid zero-amount payment yields
`.ok []`. -/
theorem skip_payment_noop_witness :
    applyPayment [] ⟨0, "A", ["B"]⟩ = [] ∧
      solve [⟨0, "A", ["B"]⟩] = .ok [] := by
  have h := skip_payment_noop [] ⟨0, "A", ["B"]⟩ [⟨0, "A", ["B"]⟩]
  exact ⟨h.1 (Or.inl rfl), h.2 (by decide) (by decide)⟩

/-! ## Permutation facts about the stable sorts -/

open List in
theorem insertDesc_perm (x : String × Int) (l : List (String × Int)) :
    insertDesc x l ~ x :: l := by
  induction l with
  | nil => exact List.Perm.refl _
  | cons y ys ih =>
    unfold insertDesc
    split
    · exact (ih.cons y).trans (List.Perm.swap x y ys)
    · exact List.Perm.refl _

open List in
theorem sortDesc_perm (l : List (String × Int)) : sortDesc l ~ l := by
  induction l with
  | nil => exact List.Perm.refl _
  | cons x xs ih =>
    exact (insertDesc_perm x (sortDesc xs)).trans (ih.cons x)

open List in
theorem insertRep_perm (x : Repayment) (l : List Repayment) :
    insertRep x l ~ x :: l := by
  induction l with
  | nil => exact List.Perm.refl _
  | cons y ys ih =>
    unfold insertRep
    split
    · exact (ih.cons y).trans (List.Perm.swap x y ys)
    · exact List.Perm.refl _

open List in
theorem sortRepayments_perm (l : List Repayment) : sortRepayments l ~ l := by
  induction l with
  | nil => exact List.Perm.refl _
  | cons x xs ih =>
    exact (insertRep_perm x (sortRepayments xs)).trans (ih.cons x)

/-! ## The creditor/debtor partition -/

theorem mem_creditorsOf_pos {bs : List (String × Int)} {e : String × Int}
    (h : e ∈ creditorsOf bs) : 0 < e.2 := by
  simp only [creditorsOf, List.mem_filterMap] at h
  obtain ⟨a, _, ha⟩ := h
  by_cases hp : 0 < a.2
  · rw [if_pos hp] at ha
    cases ha
    exact hp
  · rw [if_neg hp] at ha
    cases ha

theorem mem_debtorsOf_pos {bs : List (String × Int)} {e : String × Int}
    (h : e ∈ debtorsOf bs) : 0 < e.2 := by
  simp only [debtorsOf, List.mem_filterMap] at h
  obtain ⟨a, _, ha⟩ := h
  by_cases hp : a.2 < 0
  · rw [if_pos hp] at ha
    cases ha
    simpa using hp
  · rw [if_neg hp] at ha
    cases ha

theorem creditorsOf_cons (e : String × Int) (bs : List (String × Int)) :
    creditorsOf (e :: bs) =
      if 0 < e.2 then e :: creditorsOf bs else creditorsOf bs := by
  by_cases h : 0 < e.2 <;> simp [creditorsOf, List.filterMap_cons, h]

theorem debtorsOf_cons (e : String × Int) (bs : List (String × Int)) :
    debtorsOf (e :: bs) =
      if e.2 < 0 then (e.1, -e.2) :: debtorsOf bs else debtorsOf bs := by
  by_cases h : e.2 < 0 <;> simp [debtorsOf, List.filterMap_cons, h]

theorem sumBalances_creditors_sub_debtors (bs : List (String × Int)) :
    sumBalances (creditorsOf bs) - sumBalances (debtorsOf bs) =
      sumBalances bs := by
  induction bs with
  | nil => rfl
  | cons e rest ih =>
    rw [creditorsOf_cons, debtorsOf_cons, sumBalances_cons]
    rcases lt_trichotomy e.2 0 with h | h | h
    · rw [if_neg (by omega), if_pos h, sumBalances_cons]
      omega
    · rw [if_neg (by omega), if_neg (by omega)]
      omega
    · rw [if_pos h, if_neg (by omega), sumBalances_cons]
      omega

theorem keysOf_creditorsOf_sublist (bs : List (String × Int)) :
    List.Sublist (keysOf (creditorsOf bs)) (keysOf bs) := by
  induction bs with
  | nil => exact List.Sublist.refl _
  | cons e rest ih =>
    rw [creditorsOf_cons]
    by_cases h : 0 < e.2
    · rw [if_pos h]
      exact List.Sublist.cons₂ e.1 ih
    · rw [if_neg h]
      exact ih.cons e.1

theorem keysOf_debtorsOf_sublist (bs : List (String × Int)) :
    List.Sublist (keysOf (debtorsOf bs)) (keysOf bs) := by
  induction bs with
  | nil => exact List.Sublist.refl _
  | cons e rest ih =>
    rw [debtorsOf_cons]
    by_cases h : e.2 < 0
    · rw [if_pos h]
      exact List.Sublist.cons₂ e.1 ih
    · rw [if_neg h]
      exact ih.cons e.1

/-! ## `netAmount` and `netFlow` -/

theorem netAmount_nil (id : String) : netAmount [] id = 0 := rfl

theorem netAmount_cons (e : String × Int) (l : List (String × Int))
    (id : String) :
    netAmount (e :: l) id = (if e.1 = id then e.2 else 0) + netAmount l id := by
  simp [netAmount]

open List in
theorem netAmount_perm {l₁ l₂ : List (String × Int)} (h : l₁ ~ l₂)
    (id : String) : netAmount l₁ id = netAmount l₂ id :=
  (h.map _).sum_eq

open List in
theorem sumBalances_perm {l₁ l₂ : List (String × Int)} (h : l₁ ~ l₂) :
    sumBalances l₁ = sumBalances l₂ :=
  (h.map _).sum_eq

theorem keysOf_cons (e : String × Int) (l : List (String × Int)) :
    keysOf (e :: l) = e.1 :: keysOf l := rfl

theorem netAmount_eq_zero_of_not_mem :
    ∀ {l : List (String × Int)} {id : String},
      id ∉ keysOf l → netAmount l id = 0 := by
  intro l
  induction l with
  | nil => intro id _; rfl
  | cons e rest ih =>
    intro id h
    rw [keysOf_cons, List.mem_cons] at h
    push_neg at h
    rw [netAmount_cons, if_neg (fun hc => h.1 hc.symm), ih h.2, add_zero]

theorem netAmount_partition :
    ∀ (bs : List (String × Int)), (keysOf bs).Nodup → ∀ id : String,
      netAmount (creditorsOf bs) id - netAmount (debtorsOf bs) id =
        getBalance bs id := by
  intro bs
  induction bs with
  | nil => intro _ id; rfl
  | cons e rest ih =>
    intro hk id
    obtain ⟨k, w⟩ := e
    rw [keysOf_cons, List.nodup_cons] at hk
    obtain ⟨hknot, hkrest⟩ := hk
    rw [creditorsOf_cons, debtorsOf_cons, getBalance_cons]
    by_cases hkid : k = id
    · subst hkid
      have hzc : netAmount (creditorsOf rest) k = 0 :=
        netAmount_eq_zero_of_not_mem
          (fun hc => hknot ((keysOf_creditorsOf_sublist rest).subset hc))
      have hzd : netAmount (debtorsOf rest) k = 0 :=
        netAmount_eq_zero_of_not_mem
          (fun hc => hknot ((keysOf_debtorsOf_sublist rest).subset hc))
      rw [if_pos rfl]
      rcases lt_trichotomy w 0 with h | h | h
      · rw [if_neg (by omega), if_pos h, netAmount_cons, if_pos rfl]
        omega
      · rw [if_neg (by omega), if_neg (by omega)]
        omega
      · rw [if_pos h, if_neg (by omega), netAmount_cons, if_pos rfl]
        omega
    · rw [if_neg hkid]
      have hrec := ih hkrest id
      rcases lt_trichotomy w 0 with h | h | h
      · rw [if_neg (by omega), if_pos h, netAmount_cons, if_neg hkid]
        omega
      · rw [if_neg (by omega), if_neg (by omega)]
        omega
      · rw [if_pos h, if_neg (by omega), netAmount_cons, if_neg hkid]
        omega

theorem netFlow_nil (id : String) : netFlow [] id = 0 := rfl

theorem netFlow_cons (r : Repayment) (reps : List Repayment) (id : String) :
    netFlow (r :: reps) id =
      ((if r.«from» = id then r.amount else 0) +
        (if r.«to» = id then -r.amount else 0)) + netFlow reps id := by
  simp [netFlow]

theorem getBalance_settleRepayments :
    ∀ (reps : List Repayment) (bs : List (String × Int)) (id : String),
      getBalance (settleRepayments bs reps) id =
        getBalance bs id + netFlow reps id := by
  intro reps
  induction reps with
  | nil => intro bs id; simp [settleRepayments, netFlow_nil]
  | cons r rest ih =>
    intro bs id
    rw [show settleRepayments bs (r :: rest) =
        settleRepayments (settleRepayment bs r) rest from rfl,
      ih, netFlow_cons, settleRepayment, getBalance_addBalance,
      getBalance_addBalance]
    by_cases h1 : r.«from» = id <;> by_cases h2 : r.«to» = id <;>
      simp [h1, h2] <;> ring

/-! ## Step lemmas for the matching loop -/

theorem min_sub_zero (ca da : Int) :
    ca - min ca da = 0 ∨ da - min ca da = 0 := by
  rcases min_choice ca da with h | h <;> omega

theorem matchLoopAux_step_bb {ca da : Int} (cid did2 : String)
    (cs ds : List (String × Int)) (h1 : ca - min ca da = 0)
    (h2 : da - min ca da = 0) :
    matchLoopAux ((cid, ca) :: cs) ((did2, da) :: ds) =
      (⟨min ca da, did2, cid⟩ :: (matchLoopAux cs ds).1,
        (matchLoopAux cs ds).2) := by
  rw [matchLoopAux_cons_cons]
  simp only [if_pos h1, if_pos h2]

theorem matchLoopAux_step_c {ca da : Int} (cid did2 : String)
    (cs ds : List (String × Int)) (h1 : ca - min ca da = 0)
    (h2 : da - min ca da ≠ 0) :
    matchLoopAux ((cid, ca) :: cs) ((did2, da) :: ds) =
      (⟨min ca da, did2, cid⟩ ::
          (matchLoopAux cs ((did2, da - min ca da) :: ds)).1,
        (matchLoopAux cs ((did2, da - min ca da) :: ds)).2) := by
  rw [matchLoopAux_cons_cons]
  simp only [if_pos h1, if_neg h2]

theorem matchLoopAux_step_d {ca da : Int} (cid did2 : String)
    (cs ds : List (String × Int)) (h1 : ca - min ca da ≠ 0)
    (h2 : da - min ca da = 0) :
    matchLoopAux ((cid, ca) :: cs) ((did2, da) :: ds) =
      (⟨min ca da, did2, cid⟩ ::
          (matchLoopAux ((cid, ca - min ca da) :: cs) ds).1,
        (matchLoopAux ((cid, ca - min ca da) :: cs) ds).2) := by
  rw [matchLoopAux_cons_cons]
  simp only [if_neg h1, if_pos h2]

/-! ## The matching loop invariant -/

theorem sumBalances_pos {l : List (String × Int)} (hpos : ∀ e ∈ l, 0 < e.2)
    (hne : l ≠ []) : 0 < sumBalances l := by
  apply List.sum_pos
  · intro x hx
    simp only [List.mem_map] at hx
    obtain ⟨a, ha, rfl⟩ := hx
    exact hpos a ha
  · simpa using hne

/-- Main invariant of the greedy matching loop: starting from positive-amount
creditor and debtor lists with equal totals, the loop exhausts both lists, and
the net flow of the emitted repayments pays each id its debtor amount and
collects from each id its creditor amount. -/
theorem matchLoopAux_spec :
    ∀ (cl dl : List (String × Int)),
      (∀ e ∈ cl, 0 < e.2) → (∀ e ∈ dl, 0 < e.2) →
      sumBalances cl = sumBalances dl →
      (matchLoopAux cl dl).2.1 = [] ∧ (matchLoopAux cl dl).2.2 = [] ∧
        ∀ id, netFlow (matchLoopAux cl dl).1 id =
          netAmount dl id - netAmount cl id := by
  intro cl dl
  induction cl, dl using matchLoopAux.induct with
  | case1 dl =>
    intro _ hd hs
    have hdl : dl = [] := by
      by_contra hne
      have := sumBalances_pos hd hne
      rw [← hs] at this
      simp [sumBalances] at this
    subst hdl
    rw [matchLoopAux_nil_left]
    exact ⟨rfl, rfl, fun id => by simp [netFlow_nil, netAmount_nil]⟩
  | case2 c cs =>
    intro hc _ hs
    exfalso
    have := sumBalances_pos hc (by simp)
    rw [hs] at this
    simp [sumBalances] at this
  | case3 cid ca cs did2 da ds amt ca2v da2v ih1 ih2 ih3 =>
    intro hc hd hs
    have hca : 0 < ca := hc (cid, ca) (by simp)
    have hda : 0 < da := hd (did2, da) (by simp)
    have hmin1 : min ca da ≤ ca := min_le_left ca da
    have hmin2 : min ca da ≤ da := min_le_right ca da
    have hcs : ∀ e ∈ cs, 0 < e.2 := fun e he => hc e (by simp [he])
    have hds : ∀ e ∈ ds, 0 < e.2 := fun e he => hd e (by simp [he])
    have hsum : ca + sumBalances cs = da + sumBalances ds := by
      rw [sumBalances_cons, sumBalances_cons] at hs
      exact hs
    by_cases h1 : ca - min ca da = 0
    · by_cases h2 : da - min ca da = 0
      · rw [matchLoopAux_step_bb cid did2 cs ds h1 h2]
        obtain ⟨e1, e2, hflow⟩ := ih1 hcs hds (by omega)
        refine ⟨e1, e2, fun id => ?_⟩
        rw [netFlow_cons, hflow id, netAmount_cons, netAmount_cons]
        by_cases hcid : cid = id <;> by_cases hdid : did2 = id <;>
          simp only [hcid, hdid, if_pos, if_neg, if_true, if_false] <;>
          omega
      · rw [matchLoopAux_step_c cid did2 cs ds h1 h2]
        have hds' : ∀ e ∈ (did2, da - min ca da) :: ds, 0 < e.2 := by
          intro e he
          rcases List.mem_cons.mp he with rfl | he
          · simp only []
            omega
          · exact hds e he
        obtain ⟨e1, e2, hflow⟩ := ih2 hcs hds'
          (by rw [sumBalances_cons]; simp only []; omega)
        refine ⟨e1, e2, fun id => ?_⟩
        rw [netFlow_cons, hflow id, netAmount_cons, netAmount_cons,
          netAmount_cons]
        by_cases hcid : cid = id <;> by_cases hdid : did2 = id <;>
          simp only [hcid, hdid, if_pos, if_neg, if_true, if_false] <;>
          omega
    · have h2 : da - min ca da = 0 := by
        rcases min_sub_zero ca da with h | h
        · exact absurd h h1
        · exact h
      rw [matchLoopAux_step_d cid did2 cs ds h1 h2]
      have hcs' : ∀ e ∈ (cid, ca - min ca da) :: cs, 0 < e.2 := by
        intro e he
        rcases List.mem_cons.mp he with rfl | he
        · simp only []
          omega
        · exact hcs e he
      obtain ⟨e1, e2, hflow⟩ := ih3 hcs' hds
        (by rw [sumBalances_cons]; simp only []; omega)
      refine ⟨e1, e2, fun id => ?_⟩
      rw [netFlow_cons, hflow id, netAmount_cons, netAmount_cons,
        netAmount_cons]
      by_cases hcid : cid = id <;> by_cases hdid : did2 = id <;>
        simp only [hcid, hdid, if_pos, if_neg, if_true, if_false] <;>
        omega

/-! ## Facts about the sorted partitions of a balance map -/

theorem sortedCreditors_pos (bs : List (String × Int)) :
    ∀ e ∈ sortDesc (creditorsOf bs), 0 < e.2 := fun _ he =>
  mem_creditorsOf_pos ((sortDesc_perm (creditorsOf bs)).subset he)

theorem sortedDebtors_pos (bs : List (String × Int)) :
    ∀ e ∈ sortDesc (debtorsOf bs), 0 < e.2 := fun _ he =>
  mem_debtorsOf_pos ((sortDesc_perm (debtorsOf bs)).subset he)

theorem sortedPartition_sum_eq (bs : List (String × Int))
    (h : sumBalances bs = 0) :
    sumBalances (sortDesc (creditorsOf bs)) =
      sumBalances (sortDesc (debtorsOf bs))  := by
  rw [sumBalances_perm (sortDesc_perm (creditorsOf bs)),
    sumBalances_perm (sortDesc_perm (debtorsOf bs))]
  have := sumBalances_creditors_sub_debtors bs
  omega

/-- C2: settling every repayment emitted by the greedy matcher against the
balance map the accumulator produced restores every balance to exactly zero,
and the matching loop stops with both the creditor and the debtor list
exhausted. -/
theorem settlement_correct (ps : List Payment) :
    (∀ id, getBalance
        (settleRepayments (calculateBalances ps)
          (generateRepayments (calculateBalances ps))) id = 0) ∧
      (generateRepaymentsFull (calculateBalances ps)).2.1 = [] ∧
      (generateRepaymentsFull (calculateBalances ps)).2.2 = [] := by
  have hk := nodupKeys_calculateBalances ps
  have hsum := sumBalances_calculateBalances ps
  obtain ⟨e1, e2, hflow⟩ := matchLoopAux_spec
    (sortDesc (creditorsOf (calculateBalances ps)))
    (sortDesc (debtorsOf (calculateBalances ps)))
    (sortedCreditors_pos _) (sortedDebtors_pos _)
    (sortedPartition_sum_eq _ hsum)
  refine ⟨fun id => ?_, e1, e2⟩
  rw [getBalance_settleRepayments,
    show generateRepayments (calculateBalances ps) =
      (matchLoopAux (sortDesc (creditorsOf (calculateBalances ps)))
        (sortDesc (debtorsOf (calculateBalances ps)))).1 from rfl,
    hflow id,
    netAmount_perm (sortDesc_perm (creditorsOf (calculateBalances ps))),
    netAmount_perm (sortDesc_perm (debtorsOf (calculateBalances ps)))]
  have := netAmount_partition (calculateBalances ps) hk id
  omega

/-! ## Transfer-count bound -/

theorem matchLoopAux_length_le :
    ∀ (cl dl : List (String × Int)),
      (matchLoopAux cl dl).1.length ≤ cl.length + dl.length - 1 := by
  intro cl dl
  induction cl, dl using matchLoopAux.induct with
  | case1 dl => rw [matchLoopAux_nil_left]; simp
  | case2 c cs => rw [matchLoopAux_cons_nil]; simp
  | case3 cid ca cs did2 da ds amt ca2v da2v ih1 ih2 ih3 =>
    have hca2 : ca2v = ca - min ca da := rfl
    have hda2 : da2v = da - min ca da := rfl
    rw [hca2] at ih3
    rw [hda2] at ih2
    by_cases h1 : ca - min ca da = 0
    · by_cases h2 : da - min ca da = 0
      · rw [matchLoopAux_step_bb cid did2 cs ds h1 h2, List.length_cons]
        simp only [List.length_cons]
        omega
      · rw [matchLoopAux_step_c cid did2 cs ds h1 h2, List.length_cons]
        simp only [List.length_cons] at ih2 ⊢
        omega
    · have h2 : da - min ca da = 0 := by
        rcases min_sub_zero ca da with h | h
        · exact absurd h h1
        · exact h
      rw [matchLoopAux_step_d cid did2 cs ds h1 h2, List.length_cons]
      simp only [List.length_cons] at ih3 ⊢
      omega

/-- C6 as amended: whenever at least one creditor or debtor exists, the
number of emitted repayments is at most
`#creditors + #debtors − 1` (as integers). -/
theorem transfer_bound (bs : List (String × Int))
    (h : creditorsOf bs ≠ [] ∨ debtorsOf bs ≠ []) :
    ((generateRepayments bs).length : Int) ≤
      ((creditorsOf bs).length : Int) + ((debtorsOf bs).length : Int) - 1 := by
  have hb := matchLoopAux_length_le (sortDesc (creditorsOf bs))
    (sortDesc (debtorsOf bs))
  have hcl : (sortDesc (creditorsOf bs)).length = (creditorsOf bs).length :=
    (sortDesc_perm _).length_eq
  have hdl : (sortDesc (debtorsOf bs)).length = (debtorsOf bs).length :=
    (sortDesc_perm _).length_eq
  have hne : 1 ≤ (creditorsOf bs).length + (debtorsOf bs).length := by
    rcases h with h | h
    · have := List.length_pos.mpr h
      omega
    · have := List.length_pos.mpr h
      omega
  rw [show generateRepayments bs =
      (matchLoopAux (sortDesc (creditorsOf bs))
        (sortDesc (debtorsOf bs))).1 from rfl]
  omega

/-- Counterexample to C6 as stated: on the empty balance map there are no
creditors and no debtors, and zero emitted repayments exceed
`0 + 0 − 1 = −1`. -/
theorem transfer_bound_counterexample :
    ¬ (((generateRepayments []).length : Int) ≤
      ((creditorsOf []).length : Int) + ((debtorsOf []).length : Int) - 1) := by
  have hgen : generateRepayments [] = [] := by
    simp [generateRepayments, generateRepaymentsFull, creditorsOf, debtorsOf,
      sortDesc, matchLoopAux_nil_left]
  rw [hgen]
  simp [creditorsOf, debtorsOf]

/-- Witness for C6 (amended) on a two-person balance map. -/
theorem transfer_bound_witness :
    (creditorsOf [("A", 100), ("B", -100)] ≠ [] ∨
        debtorsOf [("A", 100), ("B", -100)] ≠ []) ∧
      ((generateRepayments [("A", 100), ("B", -100)]).length : Int) ≤
        ((creditorsOf [("A", 100), ("B", -100)]).length : Int) +
          ((debtorsOf [("A", 100), ("B", -100)]).length : Int) - 1 :=
  ⟨Or.inl (by decide), transfer_bound _ (Or.inl (by decide))⟩

/-! ## No duplicate (from, to) pairs -/

theorem matchLoopAux_mem :
    ∀ (cl dl : List (String × Int)) (r : Repayment),
      r ∈ (matchLoopAux cl dl).1 →
      r.«to» ∈ keysOf cl ∧ r.«from» ∈ keysOf dl := by
  intro cl dl
  induction cl, dl using matchLoopAux.induct with
  | case1 dl =>
    intro r hr
    rw [matchLoopAux_nil_left] at hr
    cases hr
  | case2 c cs =>
    intro r hr
    rw [matchLoopAux_cons_nil] at hr
    cases hr
  | case3 cid ca cs did2 da ds amt ca2v da2v ih1 ih2 ih3 =>
    intro r hr
    rw [keysOf_cons, keysOf_cons]
    by_cases h1 : ca - min ca da = 0
    · by_cases h2 : da - min ca da = 0
      · rw [matchLoopAux_step_bb cid did2 cs ds h1 h2] at hr
        rcases List.mem_cons.mp hr with rfl | hr
        · exact ⟨by simp, by simp⟩
        · obtain ⟨ht, hf⟩ := ih1 r hr
          exact ⟨by simp [ht], by simp [hf]⟩
      · rw [matchLoopAux_step_c cid did2 cs ds h1 h2] at hr
        rcases List.mem_cons.mp hr with rfl | hr
        · exact ⟨by simp, by simp⟩
        · obtain ⟨ht, hf⟩ := ih2 r hr
          rw [keysOf_cons] at hf
          exact ⟨by simp [ht], by simpa using hf⟩
    · have h2 : da - min ca da = 0 := by
        rcases min_sub_zero ca da with h | h
        · exact absurd h h1
        · exact h
      rw [matchLoopAux_step_d cid did2 cs ds h1 h2] at hr
      rcases List.mem_cons.mp hr with rfl | hr
      · exact ⟨by simp, by simp⟩
      · obtain ⟨ht, hf⟩ := ih3 r hr
        rw [keysOf_cons] at ht
        exact ⟨by simpa using ht, by simp [hf]⟩

theorem matchLoopAux_pairs_nodup :
    ∀ (cl dl : List (String × Int)),
      (keysOf cl).Nodup → (keysOf dl).Nodup →
      ((matchLoopAux cl dl).1.map (fun r => (r.«from», r.«to»))).Nodup := by
  intro cl dl
  induction cl, dl using matchLoopAux.induct with
  | case1 dl =>
    intro _ _
    rw [matchLoopAux_nil_left]
    simp
  | case2 c cs =>
    intro _ _
    rw [matchLoopAux_cons_nil]
    simp
  | case3 cid ca cs did2 da ds amt ca2v da2v ih1 ih2 ih3 =>
    intro hc hd
    rw [keysOf_cons, List.nodup_cons] at hc hd
    obtain ⟨hcnot, hcrest⟩ := hc
    obtain ⟨hdnot, hdrest⟩ := hd
    by_cases h1 : ca - min ca da = 0
    · by_cases h2 : da - min ca da = 0
      · rw [matchLoopAux_step_bb cid did2 cs ds h1 h2, List.map_cons,
          List.nodup_cons]
        refine ⟨fun hmem => ?_, ih1 hcrest hdrest⟩
        simp only [List.mem_map] at hmem
        obtain ⟨r, hr, hpair⟩ := hmem
        have ht := (matchLoopAux_mem cs ds r hr).1
        have : r.«to» = cid := congrArg Prod.snd hpair
        exact hcnot (this ▸ ht)
      · rw [matchLoopAux_step_c cid did2 cs ds h1 h2, List.map_cons,
          List.nodup_cons]
        refine ⟨fun hmem => ?_,
          ih2 hcrest (by rw [keysOf_cons]; exact List.nodup_cons.mpr ⟨hdnot, hdrest⟩)⟩
        simp only [List.mem_map] at hmem
        obtain ⟨r, hr, hpair⟩ := hmem
        have ht := (matchLoopAux_mem cs _ r hr).1
        have : r.«to» = cid := congrArg Prod.snd hpair
        exact hcnot (this ▸ ht)
    · have h2 : da - min ca da = 0 := by
        rcases min_sub_zero ca da with h | h
        · exact absurd h h1
        · exact h
      rw [matchLoopAux_step_d cid did2 cs ds h1 h2, List.map_cons,
        List.nodup_cons]
      refine ⟨fun hmem => ?_,
        ih3 (by rw [keysOf_cons]; exact List.nodup_cons.mpr ⟨hcnot, hcrest⟩) hdrest⟩
      simp only [List.mem_map] at hmem
      obtain ⟨r, hr, hpair⟩ := hmem
      have hf := (matchLoopAux_mem _ ds r hr).2
      have : r.«from» = did2 := congrArg Prod.fst hpair
      exact hdnot (this ▸ hf)

theorem sortedCreditors_keys_nodup (bs : List (String × Int))
    (h : (keysOf bs).Nodup) :
    (keysOf (sortDesc (creditorsOf bs))).Nodup := by
  have hperm : List.Perm (keysOf (sortDesc (creditorsOf bs)))
      (keysOf (creditorsOf bs)) := (sortDesc_perm _).map _
  have h2 : (keysOf (creditorsOf bs)).Nodup :=
    (keysOf_creditorsOf_sublist bs).nodup h
  exact (hperm.nodup_iff).mpr h2

theorem sortedDebtors_keys_nodup (bs : List (String × Int))
    (h : (keysOf bs).Nodup) :
    (keysOf (sortDesc (debtorsOf bs))).Nodup := by
  have hperm : List.Perm (keysOf (sortDesc (debtorsOf bs)))
      (keysOf (debtorsOf bs)) := (sortDesc_perm _).map _
  have h2 : (keysOf (debtorsOf bs)).Nodup :=
    (keysOf_debtorsOf_sublist bs).nodup h
  exact (hperm.nodup_iff).mpr h2

/-- C7: within one call of `solve`, the greedy matcher never emits two
repayments with the same `(from, to)` pair. -/
theorem no_duplicate_pairs (ps : List Payment) :
    ((generateRepayments (calculateBalances ps)).map
      (fun r => (r.«from», r.«to»))).Nodup :=
  matchLoopAux_pairs_nodup _ _
    (sortedCreditors_keys_nodup _ (nodupKeys_calculateBalances ps))
    (sortedDebtors_keys_nodup _ (nodupKeys_calculateBalances ps))

/-! ## Positivity of emitted amounts -/

theorem matchLoopAux_amount_pos :
    ∀ (cl dl : List (String × Int)),
      (∀ e ∈ cl, 0 < e.2) → (∀ e ∈ dl, 0 < e.2) →
      ∀ r ∈ (matchLoopAux cl dl).1, 0 < r.amount := by
  intro cl dl
  induction cl, dl using matchLoopAux.induct with
  | case1 dl =>
    intro _ _ r hr
    rw [matchLoopAux_nil_left] at hr
    cases hr
  | case2 c cs =>
    intro _ _ r hr
    rw [matchLoopAux_cons_nil] at hr
    cases hr
  | case3 cid ca cs did2 da ds amt ca2v da2v ih1 ih2 ih3 =>
    intro hc hd r hr
    have hca : 0 < ca := hc (cid, ca) (by simp)
    have hda : 0 < da := hd (did2, da) (by simp)
    have hmin1 : min ca da ≤ ca := min_le_left ca da
    have hmin2 : min ca da ≤ da := min_le_right ca da
    have hminpos : 0 < min ca da := lt_min hca hda
    have hcs : ∀ e ∈ cs, 0 < e.2 := fun e he => hc e (by simp [he])
    have hds : ∀ e ∈ ds, 0 < e.2 := fun e he => hd e (by simp [he])
    by_cases h1 : ca - min ca da = 0
    · by_cases h2 : da - min ca da = 0
      · rw [matchLoopAux_step_bb cid did2 cs ds h1 h2] at hr
        rcases List.mem_cons.mp hr with rfl | hr
        · exact hminpos
        · exact ih1 hcs hds r hr
      · rw [matchLoopAux_step_c cid did2 cs ds h1 h2] at hr
        rcases List.mem_cons.mp hr with rfl | hr
        · exact hminpos
        · refine ih2 hcs ?_ r hr
          intro e he
          rcases List.mem_cons.mp he with rfl | he
          · simp only []
            omega
          · exact hds e he
    · have h2 : da - min ca da = 0 := by
        rcases min_sub_zero ca da with h | h
        · exact absurd h h1
        · exact h
      rw [matchLoopAux_step_d cid did2 cs ds h1 h2] at hr
      rcases List.mem_cons.mp hr with rfl | hr
      · exact hminpos
      · refine ih3 ?_ hds r hr
        intro e he
        rcases List.mem_cons.mp he with rfl | he
        · simp only []
          omega
        · exact hcs e he

theorem solve_ok_inv (ps : List Payment) (reps : List Repayment)
    (h : solve ps = .ok reps) :
    reps = sortRepayments (generateRepayments (calculateBalances ps)) := by
  cases hv : validatePayments ps with
  | error e =>
    rw [solve_eq_of_validation_error ps e hv] at h
    cases h
  | ok u =>
    obtain ⟨⟩ := u
    rw [solve_eq_of_validation_ok ps hv] at h
    exact (Except.ok.inj h).symm

/-- C8: every repayment in a successful output of `solve` has a strictly
positive amount. -/
theorem repayments_positive (ps : List Payment) (reps : List Repayment)
    (h : solve ps = .ok reps) : ∀ r ∈ reps, 0 < r.amount := by
  intro r hr
  rw [solve_ok_inv ps reps h] at hr
  have hr2 : r ∈ generateRepayments (calculateBalances ps) :=
    (sortRepayments_perm _).subset hr
  exact matchLoopAux_amount_pos _ _ (sortedCreditors_pos _)
    (sortedDebtors_pos _) r hr2

/-- Witness for C8 at the second spec scenario. -/
theorem repayments_positive_witness :
    solve [⟨100, "A", ["B"]⟩] = .ok [⟨100, "B", "A"⟩] ∧
      0 < (⟨100, "B", "A"⟩ : Repayment).amount := by
  have hsolve : solve [⟨100, "A", ["B"]⟩] = .ok [⟨100, "B", "A"⟩] := by
    simp [solve, validatePayments, validatePayment, checkBeneficiaries, bind,
      Except.bind, calculateBalances, applyPayment, debitBeneficiaries,
      addBalance, setBalance, getBalance, generateRepayments,
      generateRepaymentsFull, creditorsOf, debtorsOf, sortDesc, insertDesc,
      matchLoopAux_nil_left, matchLoopAux_cons_nil, matchLoopAux_cons_cons,
      sortRepayments, insertRep, repLE, List.filterMap, List.find?, pure,
      Except.pure]
  exact ⟨hsolve, repayments_positive _ _ hsolve _ (by simp)⟩

/-! ## Remainder exactness (C5) -/

theorem getBalance_debitBeneficiaries_not_mem :
    ∀ (l : List String) (bs : List (String × Int)) (share rem : Int)
      (b : String), b ∉ l →
      getBalance (debitBeneficiaries bs share rem l) b = getBalance bs b := by
  intro l
  induction l with
  | nil => intro bs share rem b _; rfl
  | cons b' rest ih =>
    intro bs share rem b hb
    rw [List.mem_cons] at hb
    push_neg at hb
    cases rest with
    | nil =>
      rw [show debitBeneficiaries bs share rem [b'] =
          addBalance bs b' (-(share + rem)) from rfl,
        getBalance_addBalance, if_neg (fun hc => hb.1 hc.symm), add_zero]
    | cons r rs =>
      rw [show debitBeneficiaries bs share rem (b' :: r :: rs) =
          debitBeneficiaries (addBalance bs b' (-share)) share rem (r :: rs)
          from rfl,
        ih _ _ _ b hb.2, getBalance_addBalance,
        if_neg (fun hc => hb.1 hc.symm), add_zero]

theorem getBalance_debitBeneficiaries :
    ∀ (l : List String) (bs : List (String × Int)) (share rem : Int)
      (hne : l ≠ []) (_hnd : l.Nodup) (b : String), b ∈ l →
      getBalance (debitBeneficiaries bs share rem l) b =
        getBalance bs b -
          (if b = l.getLast hne then share + rem else share) := by
  intro l
  induction l with
  | nil => intro bs share rem hne; exact absurd rfl hne
  | cons b' rest ih =>
    intro bs share rem hne hnd b hb
    cases rest with
    | nil =>
      have hbb : b = b' := by simpa using hb
      subst hbb
      rw [show ([b] : List String).getLast hne = b from rfl, if_pos rfl,
        show debitBeneficiaries bs share rem [b] =
          addBalance bs b (-(share + rem)) from rfl,
        getBalance_addBalance, if_pos rfl]
      ring
    | cons r rs =>
      rw [List.nodup_cons] at hnd
      obtain ⟨hnotmem, hndrest⟩ := hnd
      have hlast : (b' :: r :: rs).getLast hne =
          (r :: rs).getLast (by simp) := List.getLast_cons (by simp)
      rw [show debitBeneficiaries bs share rem (b' :: r :: rs) =
          debitBeneficiaries (addBalance bs b' (-share)) share rem (r :: rs)
          from rfl]
      rcases List.mem_cons.mp hb with rfl | hbin
      · rw [getBalance_debitBeneficiaries_not_mem _ _ _ _ b hnotmem,
          getBalance_addBalance, if_pos rfl, hlast,
          if_neg (fun hc => hnotmem (by rw [hc]; exact List.getLast_mem _))]
        ring
      · have hbb : b ≠ b' := fun hc => hnotmem (hc ▸ hbin)
        rw [ih _ _ _ (by simp) hndrest b hbin, getBalance_addBalance,
          if_neg (fun hc => hbb hc.symm), add_zero, hlast]

theorem remainder_bounds (a c : Int) (hc : 0 < c) :
    0 ≤ a - a.fdiv c * c ∧ a - a.fdiv c * c < c := by
  rw [Int.fdiv_eq_ediv _ (le_of_lt hc)]
  have h1 := Int.emod_nonneg a (show c ≠ 0 by omega)
  have h2 := Int.emod_lt_of_pos a hc
  rw [Int.emod_def, mul_comm] at h1 h2
  exact ⟨h1, h2⟩

/-- C5: for a payment processed with positive amount and a non-empty,
duplicate-free beneficiary list, with `share = ⌊amount / count⌋` and
`remainder = amount − share × count`: the remainder lies in `[0, count)`, the
accumulator debits the beneficiaries exactly through `debitBeneficiaries`
after crediting the payer, every beneficiary except the one in last position
is debited exactly `share`, the last is debited `share + remainder`, and the
debits sum to exactly the payment's amount. -/
theorem remainder_exact (bs : List (String × Int)) (p : Payment)
    (share rem : Int)
    (hshare : share = p.amount.fdiv (p.beneficiaries.length : Int))
    (hrem : rem = p.amount - share * (p.beneficiaries.length : Int))
    (h1 : 0 < p.amount) (h2 : p.beneficiaries ≠ [])
    (h3 : p.beneficiaries.Nodup) :
    (0 ≤ rem ∧ rem < (p.beneficiaries.length : Int)) ∧
      applyPayment bs p =
        debitBeneficiaries (addBalance bs p.payer p.amount) share rem
          p.beneficiaries ∧
      (∀ b ∈ p.beneficiaries, b ≠ p.beneficiaries.getLast h2 →
        getBalance (debitBeneficiaries bs share rem p.beneficiaries) b =
          getBalance bs b - share) ∧
      getBalance (debitBeneficiaries bs share rem p.beneficiaries)
          (p.beneficiaries.getLast h2) =
        getBalance bs (p.beneficiaries.getLast h2) - (share + rem) ∧
      sumBalances (debitBeneficiaries bs share rem p.beneficiaries) =
        sumBalances bs - p.amount := by
  have hlen : 0 < (p.beneficiaries.length : Int) := by
    have := List.length_pos.mpr h2
    omega
  refine ⟨?_, ?_, ?_, ?_, ?_⟩
  · subst hshare
    subst hrem
    exact remainder_bounds p.amount _ hlen
  · unfold applyPayment
    rw [if_neg (by push_neg; exact ⟨by omega, h2⟩)]
    subst hshare
    subst hrem
    rfl
  · intro b hb hblast
    rw [getBalance_debitBeneficiaries _ _ _ _ h2 h3 b hb, if_neg hblast]
  · rw [getBalance_debitBeneficiaries _ _ _ _ h2 h3 _ (List.getLast_mem h2),
      if_pos rfl]
  · rw [sumBalances_debitBeneficiaries _ _ _ _ h2, hrem]
    ring

/-- Witness for C5 at the fourth spec scenario
(`2000` split among four people, share `500`, remainder `0`). -/
theorem remainder_exact_witness :
    (0 ≤ (0 : Int) ∧ (0 : Int) < 4) ∧
      applyPayment [] ⟨2000, "A", ["A", "B", "C", "D"]⟩ =
        debitBeneficiaries (addBalance [] "A" 2000) 500 0
          ["A", "B", "C", "D"] ∧
      getBalance (debitBeneficiaries [] 500 0 ["A", "B", "C", "D"]) "B" =
        getBalance [] "B" - 500 ∧
      getBalance (debitBeneficiaries [] 500 0 ["A", "B", "C", "D"]) "D" =
        getBalance [] "D" - (500 + 0) ∧
      sumBalances (debitBeneficiaries [] 500 0 ["A", "B", "C", "D"]) =
        sumBalances [] - 2000 := by
  have h := remainder_exact [] ⟨2000, "A", ["A", "B", "C", "D"]⟩ 500 0
    (by decide) (by decide) (by decide) (by decide) (by decide)
  exact ⟨h.1, h.2.1, h.2.2.1 "B" (by decide) (by decide), h.2.2.2.1,
    h.2.2.2.2⟩

/-! ## Output order (C3)

The contract of `sortRepayments` (its doc comment) and the spec both demand
Unicode code-point comparison.  The implementation instead calls
`String.prototype.localeCompare`, i.e. locale-aware collation.  Under Node's
default locale, `"a".localeCompare("B")` is negative (primary collation
strength compares the base letters), so for a repayment list containing
debtors `"a"` and `"B"` the implementation returns the `"a"` entry first,
while code-point comparison (`"B"` is U+0042, `"a"` is U+0061) requires the
`"B"` entry first.  The theorem below evaluates both orders against the
embedded code-point contract. -/

theorem sort_locale_divergence :
    sortedByCodePoint [⟨100, "B", "Y"⟩, ⟨100, "a", "Z"⟩] ∧
      sortRepayments [⟨100, "B", "Y"⟩, ⟨100, "a", "Z"⟩] =
        [⟨100, "B", "Y"⟩, ⟨100, "a", "Z"⟩] ∧
      ¬ sortedByCodePoint [⟨100, "a", "Z"⟩, ⟨100, "B", "Y"⟩] := by
  refine ⟨by decide, by decide, by decide⟩

/-! ## Validation does not require integral amounts (C10) -/

theorem matchLoopQAux_nil_left (dl : List (String × ℚ)) :
    matchLoopQAux [] dl = ([], [], dl) := by
  rw [matchLoopQAux]

theorem matchLoopQAux_cons_cons (cid : String) (ca : ℚ)
    (cs : List (String × ℚ)) (did2 : String) (da : ℚ)
    (ds : List (String × ℚ)) :
    matchLoopQAux ((cid, ca) :: cs) ((did2, da) :: ds) =
      let amount := min ca da
      let ca2 := ca - amount
      let da2 := da - amount
      let next :=
        if ca2 = 0 then
          if da2 = 0 then matchLoopQAux cs ds
          else matchLoopQAux cs ((did2, da2) :: ds)
        else
          if da2 = 0 then matchLoopQAux ((cid, ca2) :: cs) ds
          else ([], (cid, ca2) :: cs, (did2, da2) :: ds)
      (⟨amount, did2, cid⟩ :: next.1, next.2) := by
  rw [matchLoopQAux]

/-- C10: the validator checks only the four listed conditions and never
integrality: the payment `{amount: 10.5, payer: "A", beneficiaries: ["B"]}`
has a non-negative, non-integer amount, passes validation, and `solve`
proceeds through the balance computation to a (non-integer) repayment list
rather than failing. -/
theorem validation_not_integral :
    (¬ ∃ n : ℤ, ((21 : ℚ)/2) = (n : ℚ)) ∧
      (0 : ℚ) ≤ (21 : ℚ)/2 ∧
      validatePaymentQ ⟨(21 : ℚ)/2, "A", ["B"]⟩ = .ok () ∧
      solveQ [⟨(21 : ℚ)/2, "A", ["B"]⟩] = .ok [⟨(21 : ℚ)/2, "B", "A"⟩] := by
  refine ⟨?_, by norm_num, ?_, ?_⟩
  · rintro ⟨n, hn⟩
    have h21 : (21 : ℚ) = (n : ℚ) * 2 := by
      field_simp at hn
      linarith
    have h21z : (21 : ℤ) = n * 2 := by exact_mod_cast h21
    omega
  · norm_num [validatePaymentQ, checkBeneficiaries]
    rfl
  · have hfl : ⌊(21 : ℚ)/2 / ((1 : Nat) : ℚ)⌋ = 10 := by
      rw [Int.floor_eq_iff]
      norm_num
    simp [solveQ, validatePaymentsQ, validatePaymentQ, checkBeneficiaries,
      bind, Except.bind, calculateBalancesQ, applyPaymentQ,
      debitBeneficiariesQ, addBalanceQ, setBalanceQ, getBalanceQ,
      generateRepaymentsQ, creditorsOfQ, debtorsOfQ, sortDescQ, insertDescQ,
      matchLoopQAux_nil_left, matchLoopQAux_cons_cons, sortRepaymentsQ,
      insertRepQ, repLEQ, List.filterMap, List.find?, pure, Except.pure, hfl]
    norm_num [insertDescQ, matchLoopQAux_cons_cons, matchLoopQAux_nil_left,
      insertRepQ]

end Warikan
